import Mathlib

/-!
Verification of the vulcan client's core behaviours: the streamed-JSON
accumulator, the interrupt-resolution state machine, the checkpoint/branch
tree, and the small pure helpers of the UI layer (side-panel state,
client construction, toolkit toggling).

Components whose implementation lives outside this repository's sources
(the accumulator, the interrupt controller, the conversation tree) are
modelled from the specification; helpers present in the sources
(`handleShowSidePanel`, `createClient`, `toggleToolkit`) are embedded
directly from the code.
-/

namespace Vulcan

/-! ## Side-panel state (ThreadView, src/unnamed/part_002)

Embeds the `showDescription` / `showState` pair of `useState` booleans and
the `handleShowSidePanel` handler exactly as written in `ThreadView`. -/

/-- The two booleans held by `ThreadView`: `useState(false)` each. -/
structure ThreadViewState where
  showDescription : Bool
  showState : Bool
deriving DecidableEq, Repr

/-- Initial state of `ThreadView`: both flags `false`. -/
def initialThreadViewState : ThreadViewState :=
  { showDescription := false, showState := false }

/-- Embeds `handleShowSidePanel(showState, showDescription)` from
`ThreadView`: requesting both logs an error and returns without change;
requesting one clears the other; requesting neither clears both. -/
def handleShowSidePanel (st : ThreadViewState) (reqState reqDescription : Bool) :
    ThreadViewState :=
  if reqState && reqDescription then
    st
  else if reqState then
    { showDescription := false, showState := true }
  else if reqDescription then
    { showDescription := true, showState := false }
  else
    { showDescription := false, showState := false }

/-- Runs a sequence of `handleShowSidePanel` calls from a starting state. -/
def runSidePanel (st : ThreadViewState) (calls : List (Bool × Bool)) :
    ThreadViewState :=
  calls.foldl (fun s c => handleShowSidePanel s c.1 c.2) st

/-! ## Client construction (src/frontend/src/providers/client.ts) -/

/-- The fields of the constructed SDK client that `createClient` sets. -/
structure Client where
  apiUrl : String
  defaultHeaders : List (String × String)
deriving DecidableEq, Repr

/-- Embeds `createClient(apiUrl, accessToken)`: throws when `apiUrl` is
falsy (the empty string models an empty or missing URL); adds an
`Authorization` header exactly when `accessToken` is truthy (present and
non-empty, JavaScript string truthiness). -/
def createClient (apiUrl : String) (accessToken : Option String) :
    Except String Client :=
  if apiUrl = "" then
    .error "API URL is required to create a client"
  else
    let headers : List (String × String) :=
      match accessToken with
      | some tok => if tok = "" then [] else [("Authorization", "Bearer " ++ tok)]
      | none => []
    .ok { apiUrl := apiUrl, defaultHeaders := headers }

/-- The `Authorization` entry of a client's default headers, if any. -/
def authHeader (c : Client) : Option String :=
  c.defaultHeaders.lookup "Authorization"

/-! ## Toolkit toggling (ToolkitSelector, src/unnamed/part_002) -/

/-- The closed set of toolkits of the main `ToolkitSelector`. -/
inductive Toolkit where
  | github
  | gmail
  | x
  | linkedin
  | codesandbox
  | search
  | gcal
  | stocks
  | flights
  | hotels
deriving DecidableEq, Repr

/-- Embeds `toggleToolkit`: if the toolkit is selected, filter it out;
otherwise append it at the end (the handler calls `onChange` with this
list; we return it). -/
def toggleToolkit (selectedToolkits : List Toolkit) (toolkit : Toolkit) :
    List Toolkit :=
  if selectedToolkits.contains toolkit then
    selectedToolkits.filter (fun t => t ≠ toolkit)
  else
    selectedToolkits ++ [toolkit]

/-! ## JSON values

The argument payloads streamed for tool calls are JSON texts. The data
model is the standard one (null, booleans, numbers, strings, arrays,
objects); numbers are modelled as integers, which covers the canonical
serializations exercised here. Arrays and objects are given by mutually
inductive list types so that the serializer, the parser and their proofs
can recurse mutually. -/

mutual
/-- A JSON value. -/
inductive Json where
  | null : Json
  | bool (b : Bool) : Json
  | num (n : Int) : Json
  | str (s : List Char) : Json
  | arr (elems : JsonList) : Json
  | obj (fields : JsonFields) : Json
deriving DecidableEq

/-- The elements of a JSON array. -/
inductive JsonList where
  | nil : JsonList
  | cons (hd : Json) (tl : JsonList) : JsonList
deriving DecidableEq

/-- The key/value fields of a JSON object. -/
inductive JsonFields where
  | nil : JsonFields
  | cons (key : List Char) (val : Json) (tl : JsonFields) : JsonFields
deriving DecidableEq
end

/-! ## InterruptController

Modelled from the spec: the interrupt-resolution state machine of §4.4,
its resume payloads (§6, §8) and the error taxonomy of §7 are not part of
this repository's sources (only the inbox UI that displays a pending
interrupt is), so the controller is modelled from the specification's
transition table. -/

/-- Modelled from the spec: an interrupt raised by the backend — id, the
gated tool call, a description, and an optional schema constraining the
allowed response shapes (modelled as a predicate on the proposed args). -/
structure Interrupt where
  id : String
  toolCallId : String
  description : String
  schema : Option (Json → Bool)

/-- Modelled from the spec: controller states `Idle`, `Pending` (holding
the received interrupt) and `Resolving` (decision dispatched, awaiting
backend acknowledgment; the interrupt context is retained). -/
inductive CtrlState where
  | Idle : CtrlState
  | Pending (i : Interrupt) : CtrlState
  | Resolving (i : Interrupt) : CtrlState

/-- Modelled from the spec: the four human decisions on a pending
interrupt. -/
inductive Decision where
  | accept : Decision
  | edit (newArgs : Json) : Decision
  | respond (text : String) : Decision
  | reject : Decision

/-- Modelled from the spec: events reaching the controller — an
`interrupt` stream event, a human decision, and the backend's
acknowledgment or rejection of a dispatched resumption. -/
inductive CtrlEvent where
  | interruptReceived (i : Interrupt) : CtrlEvent
  | humanDecision (d : Decision) : CtrlEvent
  | ack : CtrlEvent
  | nack : CtrlEvent

/-- Modelled from the spec: outcome taxonomy of a controller step
(§7: `ProtocolViolation` is fatal for the stream, `InvalidResponse` is
recoverable). -/
inductive CtrlOutcome where
  | ok : CtrlOutcome
  | protocolViolation : CtrlOutcome
  | invalidResponse : CtrlOutcome
deriving DecidableEq, Repr

/-- Whether an outcome is fatal for the stream (§7: `ProtocolViolation`
halts further event processing; `InvalidResponse` is recoverable). -/
def CtrlOutcome.fatal : CtrlOutcome → Bool
  | .protocolViolation => true
  | _ => false

/-- Modelled from the spec: the resume payload sent back to the backend,
`interruptId`, a decision tag, and the optional `args` / `responseText`
fields (§6); the concrete accept payload carries neither optional field
(§8). -/
structure ResumePayload where
  interruptId : String
  decision : String
  args : Option Json
  responseText : Option String

/-- Result of one controller step: successor state, outcome, and the
resume payload emitted, if any. -/
structure CtrlResult where
  state : CtrlState
  outcome : CtrlOutcome
  payload : Option ResumePayload

/-- Whether proposed args satisfy the interrupt's schema; a missing schema
accepts everything. -/
def schemaAccepts (i : Interrupt) (args : Json) : Bool :=
  match i.schema with
  | none => true
  | some p => p args

/-- Modelled from the spec: the transition table of §4.4. Any transition
not listed (an `interrupt` outside `Idle`, a decision outside `Pending`,
an ack/nack outside `Resolving`) is a `ProtocolViolation` and leaves the
state unchanged (the consumer halts; nothing is guessed). -/
def ctrlStep : CtrlState → CtrlEvent → CtrlResult
  | .Idle, .interruptReceived i => ⟨.Pending i, .ok, none⟩
  | .Pending i, .humanDecision .accept =>
      ⟨.Resolving i, .ok, some ⟨i.id, "accept", none, none⟩⟩
  | .Pending i, .humanDecision (.edit newArgs) =>
      if schemaAccepts i newArgs then
        ⟨.Resolving i, .ok, some ⟨i.id, "edit", some newArgs, none⟩⟩
      else
        ⟨.Pending i, .invalidResponse, none⟩
  | .Pending i, .humanDecision (.respond text) =>
      ⟨.Resolving i, .ok, some ⟨i.id, "respond", none, some text⟩⟩
  | .Pending i, .humanDecision .reject =>
      ⟨.Resolving i, .ok, some ⟨i.id, "reject", none, none⟩⟩
  | .Resolving _, .ack => ⟨.Idle, .ok, none⟩
  | .Resolving i, .nack => ⟨.Pending i, .ok, none⟩
  | s, _ => ⟨s, .protocolViolation, none⟩

/-- Whether exactly one of the two optional payload fields is present. -/
def exactlyOnePresent (p : ResumePayload) : Bool :=
  xor p.args.isSome p.responseText.isSome

/-! ## ConversationTree

Modelled from the spec: the checkpoint tree, message attachment and
branch-selection logic of §4.3 are not present in this repository's
sources (only the `BranchSwitcher` UI calling `setBranch` is), so the
tree is modelled from the specification. -/

/-- Modelled from the spec: a checkpoint — id, nullable parent id (null
only at the conversation root), and an opaque snapshot. -/
structure Checkpoint where
  id : String
  parent : Option String
  snapshot : String
deriving DecidableEq, Repr

/-- A transcript message (attributes beyond identity and content are not
needed for the branch-selection claims). -/
structure Msg where
  id : String
  content : String
deriving DecidableEq, Repr

/-- Modelled from the spec: the conversation tree — checkpoints in
creation order, messages attached to checkpoints in arrival order, and
the explicitly selected active leaf, if any. -/
structure ConversationTree where
  checkpoints : List Checkpoint
  messages : List (String × Msg)
  selected : Option String
deriving DecidableEq, Repr

/-- Modelled from the spec: the error taxonomy of `ConversationTree`
operations. -/
inductive TreeError where
  | UnknownCheckpoint : TreeError
  | UnknownParent : TreeError
deriving DecidableEq, Repr

/-- Whether a checkpoint with the given id has been observed. -/
def hasCheckpoint (t : ConversationTree) (cid : String) : Bool :=
  t.checkpoints.any (fun c => c.id = cid)

/-- Modelled from the spec: `addCheckpoint` appends a checkpoint, failing
with `UnknownParent` when the parent id is non-null and unseen. -/
def addCheckpoint (t : ConversationTree) (c : Checkpoint) :
    Except TreeError ConversationTree :=
  match c.parent with
  | none => .ok { t with checkpoints := t.checkpoints ++ [c] }
  | some p =>
      if hasCheckpoint t p then
        .ok { t with checkpoints := t.checkpoints ++ [c] }
      else
        .error .UnknownParent

/-- Modelled from the spec: `addMessage` attaches a message to an observed
checkpoint, failing with `UnknownCheckpoint` otherwise. -/
def addMessage (t : ConversationTree) (cid : String) (m : Msg) :
    Except TreeError ConversationTree :=
  if hasCheckpoint t cid then
    .ok { t with messages := t.messages ++ [(cid, m)] }
  else
    .error .UnknownCheckpoint

/-- Modelled from the spec: `selectBranch` sets the active leaf to the
given checkpoint, failing with `UnknownCheckpoint` if not present. -/
def selectBranch (t : ConversationTree) (cid : String) :
    Except TreeError ConversationTree :=
  if hasCheckpoint t cid then
    .ok { t with selected := some cid }
  else
    .error .UnknownCheckpoint

/-- The ids of a checkpoint's children, in creation order. -/
def childIds (t : ConversationTree) (cid : String) : List String :=
  (t.checkpoints.filter (fun c => c.parent = some cid)).map (fun c => c.id)

/-- The most recently created child of a checkpoint, if any. -/
def lastChild (t : ConversationTree) (cid : String) : Option String :=
  (childIds t cid).getLast?

/-- Walks downward from a checkpoint, at each step continuing into the
most recently created child (last-writer-wins), until a childless
checkpoint or fuel exhaustion. -/
def descendPath : Nat → ConversationTree → String → List String
  | 0, _, cid => [cid]
  | fuel + 1, t, cid =>
      match lastChild t cid with
      | none => [cid]
      | some c => cid :: descendPath fuel t c

/-- The root checkpoint's id: the first checkpoint with a null parent. -/
def rootId (t : ConversationTree) : Option String :=
  (t.checkpoints.find? (fun c => c.parent = none)).map (fun c => c.id)

/-- The checkpoint record for an id, if observed. -/
def findCheckpoint (t : ConversationTree) (cid : String) : Option Checkpoint :=
  t.checkpoints.find? (fun c => c.id = cid)

/-- Walks upward through parent links from a checkpoint and returns the
root-to-checkpoint id path. -/
def ancestorPath : Nat → ConversationTree → String → List String
  | 0, _, cid => [cid]
  | fuel + 1, t, cid =>
      match (findCheckpoint t cid).bind (fun c => c.parent) with
      | none => [cid]
      | some p => ancestorPath fuel t p ++ [cid]

/-- Modelled from the spec: the root-to-active-leaf id path: the path to
the explicitly selected checkpoint when a selection has been made,
otherwise the default walk from the root descending into the most
recently created child at every step. -/
def checkpointPath (t : ConversationTree) : List String :=
  match t.selected with
  | some leaf => ancestorPath t.checkpoints.length t leaf
  | none =>
      match rootId t with
      | none => []
      | some r => descendPath t.checkpoints.length t r

/-- The messages attached to a checkpoint, in arrival order. -/
def messagesAt (t : ConversationTree) (cid : String) : List Msg :=
  (t.messages.filter (fun pm => pm.1 = cid)).map Prod.snd

/-- Modelled from the spec: `activePath()` — walk the active checkpoint
path from the root, collecting the messages attached to each checkpoint
on the path in arrival order. -/
def activePath (t : ConversationTree) : List Msg :=
  (checkpointPath t).foldr (fun cid acc => messagesAt t cid ++ acc) []

/-! ## PartialJSONAccumulator

Modelled from the spec: the incremental JSON accumulator of §4.1 is not
part of this repository's sources (`parseAnthropicStreamedToolCalls` only
delegates to a library routine), so the serializer, the strict parser,
the bracket/string repair scan and the accumulator itself are modelled
from the specification. Serialization is canonical (no whitespace,
integer numerals, quote and backslash escaped in strings). -/

/-- Whether a character is a decimal digit. -/
def isDigitChar (c : Char) : Bool := 48 ≤ c.toNat && c.toNat ≤ 57

/-- The numeric value of a digit character. -/
def digitVal (c : Char) : Nat := c.toNat - 48

/-- The digit character for a value below ten (larger values clamp). -/
def digitChar (d : Nat) : Char :=
  match d with
  | 0 => '0'
  | 1 => '1'
  | 2 => '2'
  | 3 => '3'
  | 4 => '4'
  | 5 => '5'
  | 6 => '6'
  | 7 => '7'
  | 8 => '8'
  | _ => '9'

/-- Fueled most-significant-first decimal digit writer. -/
def natDigitsAux : Nat → Nat → List Char → List Char
  | 0, n, acc => digitChar n :: acc
  | fuel + 1, n, acc =>
      if n < 10 then digitChar n :: acc
      else natDigitsAux fuel (n / 10) (digitChar (n % 10) :: acc)

/-- The decimal digits of a natural number, most significant first. -/
def natDigits (n : Nat) : List Char := natDigitsAux n n []

/-- Reference form of `natDigits` used in proofs. -/
def natDigitsRec (n : Nat) : List Char :=
  if n < 10 then [digitChar n]
  else natDigitsRec (n / 10) ++ [digitChar (n % 10)]
termination_by n
decreasing_by exact Nat.div_lt_self (by omega) (by omega)

/-- The canonical serialization of an integer. -/
def intChars (n : Int) : List Char :=
  if n < 0 then '-' :: natDigits n.natAbs else natDigits n.toNat

/-- One serialized character of a JSON string literal: quote and backslash
are escaped. -/
def escChar (c : Char) : List Char :=
  if c = '"' ∨ c = '\\' then ['\\', c] else [c]

/-- The serialized body of a JSON string literal. -/
def escString (s : List Char) : List Char :=
  s.foldr (fun c acc => escChar c ++ acc) []

/-- The serialized `null` keyword. -/
def nullChars : List Char := ['n', 'u', 'l', 'l']

/-- The serialized `true` keyword. -/
def trueChars : List Char := ['t', 'r', 'u', 'e']

/-- The serialized `false` keyword. -/
def falseChars : List Char := ['f', 'a', 'l', 's', 'e']

mutual
/-- Canonical serialization of a JSON value. -/
def serVal : Json → List Char
  | .str s => '"' :: (escString s ++ ['"'])
  | .num n => intChars n
  | .arr l => '[' :: serItems l
  | .obj l => '\x7b' :: serFields l
  | .bool true => trueChars
  | .bool false => falseChars
  | .null => nullChars

/-- Serialization of array elements including separators and the closing
bracket. -/
def serItems : JsonList → List Char
  | .nil => [']']
  | .cons v .nil => serVal v ++ [']']
  | .cons v (.cons w tl) => serVal v ++ (',' :: serItems (.cons w tl))

/-- Serialization of object fields including separators and the closing
brace. -/
def serFields : JsonFields → List Char
  | .nil => ['\x7d']
  | .cons k v .nil =>
      ('"' :: (escString k ++ ['"', ':'])) ++ (serVal v ++ ['\x7d'])
  | .cons k v (.cons k2 w tl) =>
      ('"' :: (escString k ++ ['"', ':'])) ++
        (serVal v ++ (',' :: serFields (.cons k2 w tl)))
end

/-- Greedy decimal-digit run parser: value and remaining input. -/
def parseDigits (cs : List Char) : Option (Nat × List Char) :=
  if (cs.takeWhile isDigitChar).isEmpty then none
  else
    some ((cs.takeWhile isDigitChar).foldl (fun a c => 10 * a + digitVal c) 0,
      cs.dropWhile isDigitChar)

/-- Fueled parser for a JSON string body up to the closing unescaped
quote. -/
def parseStrBody : Nat → List Char → Option (List Char × List Char)
  | 0, _ => none
  | _ + 1, [] => none
  | f + 1, c :: rest =>
      if c = '\\' then
        match rest with
        | [] => none
        | c2 :: rest2 => (parseStrBody f rest2).map (fun p => (c2 :: p.1, p.2))
      else if c = '"' then some ([], rest)
      else (parseStrBody f rest).map (fun p => (c :: p.1, p.2))

mutual
/-- Fueled strict recursive-descent parser for one JSON value, returning
the value and the unconsumed input. -/
def parseVal : Nat → List Char → Option (Json × List Char)
  | 0, _ => none
  | _ + 1, [] => none
  | f + 1, c :: rest =>
      if c = 'n' then
        match rest with
        | 'u' :: 'l' :: 'l' :: r => some (.null, r)
        | _ => none
      else if c = 't' then
        match rest with
        | 'r' :: 'u' :: 'e' :: r => some (.bool true, r)
        | _ => none
      else if c = 'f' then
        match rest with
        | 'a' :: 'l' :: 's' :: 'e' :: r => some (.bool false, r)
        | _ => none
      else if c = '"' then
        (parseStrBody f rest).map (fun p => (Json.str p.1, p.2))
      else if c = '-' then
        (parseDigits rest).map (fun p => (Json.num (-(p.1 : Int)), p.2))
      else if c = '[' then
        if rest.head? = some ']' then some (.arr .nil, rest.tail)
        else (parseItems f rest).map (fun p => (Json.arr p.1, p.2))
      else if c = '\x7b' then
        if rest.head? = some '\x7d' then some (.obj .nil, rest.tail)
        else (parseFields f rest).map (fun p => (Json.obj p.1, p.2))
      else if isDigitChar c then
        (parseDigits (c :: rest)).map (fun p => (Json.num (p.1 : Int), p.2))
      else none

/-- Parses the elements of a non-empty array up to and including the
closing bracket. -/
def parseItems : Nat → List Char → Option (JsonList × List Char)
  | 0, _ => none
  | f + 1, cs =>
      match parseVal f cs with
      | none => none
      | some (v, r) =>
          match r with
          | ',' :: r2 =>
              match parseItems f r2 with
              | none => none
              | some (vs, r3) => some (.cons v vs, r3)
          | ']' :: r2 => some (.cons v .nil, r2)
          | _ => none

/-- Parses the fields of a non-empty object up to and including the
closing brace. -/
def parseFields : Nat → List Char → Option (JsonFields × List Char)
  | 0, _ => none
  | f + 1, cs =>
      match cs with
      | '"' :: rest =>
          match parseStrBody f rest with
          | none => none
          | some (k, r1) =>
              match r1 with
              | ':' :: r2 =>
                  match parseVal f r2 with
                  | none => none
                  | some (v, r3) =>
                      match r3 with
                      | ',' :: r4 =>
                          match parseFields f r4 with
                          | none => none
                          | some (fs, r5) => some (.cons k v fs, r5)
                      | '\x7d' :: r4 => some (.cons k v .nil, r4)
                      | _ => none
              | _ => none
      | _ => none
end

/-- Strict parse of a complete buffer: one JSON value consuming the whole
input. -/
def strictParse (cs : List Char) : Option Json :=
  match parseVal (cs.length + 1) cs with
  | some (v, []) => some v
  | _ => none

/-- State of the repair scan: open brackets (most recent first), whether a
string literal is open, and whether an escape is pending. -/
structure ScanState where
  stack : List Char
  inStr : Bool
  esc : Bool
deriving DecidableEq, Repr

/-- Modelled from the spec: one step of the buffer scan tracking open
brackets/braces and open string literals, respecting escape sequences. -/
def scanChar (st : ScanState) (c : Char) : ScanState :=
  if st.inStr then
    if st.esc then { st with esc := false }
    else if c = '\\' then { st with esc := true }
    else if c = '"' then { st with inStr := false }
    else st
  else
    if c = '"' then { st with inStr := true }
    else if c = '[' ∨ c = '\x7b' then { st with stack := c :: st.stack }
    else if c = ']' ∨ c = '\x7d' then { st with stack := st.stack.tail }
    else st

/-- The closing delimiter for an opening bracket or brace. -/
def closeChar (c : Char) : Char := if c = '[' then ']' else '\x7d'

/-- Modelled from the spec: the minimal synthesized suffix closing every
open string, then every open array/object in reverse order of opening. -/
def closeSuffix (buf : List Char) : List Char :=
  let st := buf.foldl scanChar ⟨[], false, false⟩
  (if st.inStr then ['"'] else []) ++ st.stack.map closeChar

/-- Modelled from the spec: a repair-and-parse pass — strict parse of the
buffer extended by the synthesized closing suffix. -/
def repairParse (buf : List Char) : Option Json :=
  strictParse (buf ++ closeSuffix buf)

/-- Modelled from the spec: per-tool-call accumulator state — the raw
concatenated text seen so far and the last successfully derived
best-effort value. -/
structure PartialJSONAccumulator where
  buffer : List Char
  best : Option Json

/-- A fresh accumulator: empty buffer, no best-effort value yet. -/
def initAccumulator : PartialJSONAccumulator := ⟨[], none⟩

/-- Modelled from the spec: `ingest(fragment)` — append the fragment to
the buffer, attempt a repair-and-parse pass, return the most recent
successfully parsed value (falling back to the previous best when the
pass fails). -/
def ingest (a : PartialJSONAccumulator) (fragment : List Char) :
    Option Json × PartialJSONAccumulator :=
  match repairParse (a.buffer ++ fragment) with
  | some v => (some v, ⟨a.buffer ++ fragment, some v⟩)
  | none => (a.best, ⟨a.buffer ++ fragment, a.best⟩)

/-- Feeds a sequence of fragments, in order, into an accumulator. -/
def ingestAll (a : PartialJSONAccumulator) (fragments : List (List Char)) :
    PartialJSONAccumulator :=
  fragments.foldl (fun s frag => (ingest s frag).2) a

/-- Modelled from the spec: the failure surfaced by `finalize()` when the
complete buffer is not valid JSON. -/
inductive AccError where
  | MalformedPayload : AccError
deriving DecidableEq, Repr

/-- Modelled from the spec: `finalize()` — one last strict parse of the
unmodified buffer; fails with `MalformedPayload` when it is not valid
JSON. -/
def finalize (a : PartialJSONAccumulator) : Except AccError Json :=
  match strictParse a.buffer with
  | some v => .ok v
  | none => .error .MalformedPayload

/-- Concatenation of a fragment sequence. -/
def joinFragments (fragments : List (List Char)) : List Char :=
  fragments.foldr (fun frag acc => frag ++ acc) []

/-- The buffers held by the accumulator after each fragment of a
sequence, oldest first. -/
def prefixBuffers (fragments : List (List Char)) : List (List Char) :=
  (List.range fragments.length).map
    (fun i => joinFragments (fragments.take (i + 1)))

/-- The value of the most recent successful repair-and-parse over the
buffers seen so far, if any. -/
def latestRepair (fragments : List (List Char)) : Option Json :=
  (prefixBuffers fragments).reverse.findSome? repairParse

/-- Whether a list does not start with a decimal digit. -/
def headNotDigit : List Char → Bool
  | [] => true
  | c :: _ => !isDigitChar c

/-! ## Theorems -/

/-! ## Theorems for the directly embedded helpers -/

/-- Single-step side-panel results never set both flags. -/
lemma handleShowSidePanel_not_both (st : ThreadViewState) (a b : Bool)
    (h : (st.showState && st.showDescription) = false) :
    ((handleShowSidePanel st a b).showState &&
      (handleShowSidePanel st a b).showDescription) = false := by
  unfold handleShowSidePanel
  cases a <;> cases b <;> simp_all

lemma runSidePanel_not_both (calls : List (Bool × Bool)) (st : ThreadViewState)
    (h : (st.showState && st.showDescription) = false) :
    ((runSidePanel st calls).showState &&
      (runSidePanel st calls).showDescription) = false := by
  induction calls generalizing st with
  | nil => exact h
  | cons c cs ih =>
      exact ih _ (handleShowSidePanel_not_both st c.1 c.2 h)

/-- C8: after any sequence of calls to ThreadView's handleShowSidePanel the
component state never has `showState` and `showDescription` both true; a
call requesting both is rejected without changing state, a call requesting
one clears the other, and a call requesting neither clears both. -/
theorem claim_C8_side_panel_exclusive :
    (∀ calls : List (Bool × Bool),
      ((runSidePanel initialThreadViewState calls).showState &&
        (runSidePanel initialThreadViewState calls).showDescription) = false) ∧
    (∀ st : ThreadViewState, handleShowSidePanel st true true = st) ∧
    (∀ st : ThreadViewState,
      handleShowSidePanel st true false =
        { showDescription := false, showState := true }) ∧
    (∀ st : ThreadViewState,
      handleShowSidePanel st false true =
        { showDescription := true, showState := false }) ∧
    (∀ st : ThreadViewState,
      handleShowSidePanel st false false =
        { showDescription := false, showState := false }) := by
  refine ⟨fun calls => runSidePanel_not_both calls _ rfl, ?_, ?_, ?_, ?_⟩ <;>
    intro st <;> rfl

/-- C10: `toggleToolkit` negates the toggled toolkit's membership, leaves
every other toolkit's membership unchanged, preserves the relative order of
the unaffected elements, and proceeds by filtering the toolkit out
(removal) or appending it at the end (addition). -/
theorem claim_C10_toggleToolkit (s : List Toolkit) (t : Toolkit) :
    (t ∈ toggleToolkit s t ↔ t ∉ s) ∧
    (∀ u, u ≠ t → (u ∈ toggleToolkit s t ↔ u ∈ s)) ∧
    ((toggleToolkit s t).filter (fun u => u ≠ t) = s.filter (fun u => u ≠ t)) ∧
    (t ∈ s → toggleToolkit s t = s.filter (fun u => u ≠ t)) ∧
    (t ∉ s → toggleToolkit s t = s ++ [t]) := by
  by_cases h : t ∈ s
  · have hc : s.contains t = true := by simpa using h
    have ht : toggleToolkit s t = s.filter (fun u => u ≠ t) := by
      rw [toggleToolkit.eq_def, if_pos hc]
    refine ⟨?_, ?_, ?_, fun _ => ht, fun hn => absurd h hn⟩
    · simp [ht, List.mem_filter, h]
    · intro u hu
      simp [ht, List.mem_filter, hu]
    · rw [ht, List.filter_filter]
      simp
  · have hc : s.contains t = false := by simpa using h
    have ht : toggleToolkit s t = s ++ [t] := by
      rw [toggleToolkit.eq_def, if_neg (by simpa using h)]
    refine ⟨?_, ?_, ?_, fun hm => absurd hm h, fun _ => ht⟩
    · simp [ht, h]
    · intro u hu
      simp [ht, List.mem_append, hu]
    · rw [ht, List.filter_append]
      have hs : s.filter (fun u => u ≠ t) = s :=
        List.filter_eq_self.mpr (fun u hu => by
          simp only [ne_eq, decide_eq_true_eq]
          rintro rfl
          exact h hu)
      simp [hs]

/-- C10 witness: toggling `gmail` onto `[github]` keeps `github` and
appends `gmail` at the end. -/
theorem claim_C10_witness :
    ((Toolkit.github ∈ toggleToolkit [Toolkit.github] Toolkit.gmail) ↔
      Toolkit.github ∈ [Toolkit.github]) ∧
    toggleToolkit [Toolkit.github] Toolkit.gmail =
      [Toolkit.github, Toolkit.gmail] :=
  ⟨(claim_C10_toggleToolkit [Toolkit.github] Toolkit.gmail).2.1 Toolkit.github
      (by decide),
    (claim_C10_toggleToolkit [Toolkit.github] Toolkit.gmail).2.2.2.2
      (by decide)⟩

lemma string_append_cancel_left {a b c : String} (h : a ++ b = a ++ c) : b = c := by
  have hd := congrArg String.data h
  simp only [String.data_append] at hd
  exact String.ext (List.append_cancel_left hd)

/-- C9 counterexample: with a non-empty URL and a provided but empty
access token, `createClient` succeeds yet attaches no `Authorization`
header, so the header is not `"Bearer " ++ token` although the token was
provided. -/
theorem claim_C9_counterexample :
    (some "" : Option String).isSome = true ∧
    createClient "http://localhost" (some "") =
      .ok { apiUrl := "http://localhost", defaultHeaders := [] } := by
  constructor
  · rfl
  · rfl

/-- C9 (amended): `createClient` fails exactly when `apiUrl` is empty, and
on success the `Authorization` header equals `"Bearer " ++ token` exactly
when the access token is provided and non-empty, and is absent otherwise. -/
theorem claim_C9_createClient (u : String) (tok : Option String) :
    ((∃ e, createClient u tok = .error e) ↔ u = "") ∧
    (∀ c, createClient u tok = .ok c →
      ((∀ t, (authHeader c = some ("Bearer " ++ t)) ↔ (tok = some t ∧ t ≠ "")) ∧
        (authHeader c = none ↔ (tok = none ∨ tok = some "")))) := by
  constructor
  · constructor
    · rintro ⟨e, he⟩
      by_contra hne
      rw [createClient.eq_def, if_neg hne] at he
      exact Except.noConfusion he
    · intro hu
      exact ⟨"API URL is required to create a client", by rw [createClient.eq_def, if_pos hu]⟩
  · intro c hc
    by_cases hu : u = ""
    · rw [createClient.eq_def, if_pos hu] at hc
      exact Except.noConfusion hc
    · rw [createClient.eq_def, if_neg hu] at hc
      injection hc with hc
      subst hc
      match tok with
      | none =>
          refine ⟨fun t => ?_, by simp [authHeader]⟩
          simp [authHeader]
      | some s =>
          by_cases hs : s = ""
          · subst hs
            refine ⟨fun t => ?_, by simp [authHeader]⟩
            simp only [authHeader, if_pos rfl]
            constructor
            · intro h
              exact absurd h (by simp)
            · rintro ⟨hts, hne⟩
              injection hts with hts
              exact absurd hts.symm hne
          · refine ⟨fun t => ?_, ?_⟩
            · simp only [authHeader, if_neg hs, List.lookup, beq_self_eq_true,
                if_pos, Option.some.injEq]
              constructor
              · intro h
                obtain rfl : s = t := string_append_cancel_left h
                exact ⟨rfl, hs⟩
              · rintro ⟨hts, -⟩
                rw [hts]
            · simp only [authHeader, if_neg hs, List.lookup, beq_self_eq_true,
                if_pos]
              simp [hs]

/-- C4: in every controller state other than `Idle`, an interrupt event is
a fatal `ProtocolViolation`; from `Idle` it is accepted and moves the
controller to `Pending`; and once a full prior cycle
(interrupt, accept, ack) has returned to `Idle`, a new interrupt event is
accepted and moves the controller to `Pending` on the new interrupt. -/
theorem claim_C4_interrupt_only_when_idle :
    (∀ s i, s ≠ CtrlState.Idle →
      (ctrlStep s (.interruptReceived i)).outcome = .protocolViolation ∧
      (ctrlStep s (.interruptReceived i)).outcome.fatal = true ∧
      (ctrlStep s (.interruptReceived i)).state = s) ∧
    (∀ i, ctrlStep .Idle (.interruptReceived i) =
      ⟨.Pending i, .ok, none⟩) ∧
    (∀ i j,
      (ctrlStep
        (ctrlStep
          (ctrlStep
            (ctrlStep .Idle (.interruptReceived i)).state
            (.humanDecision .accept)).state
          .ack).state
        (.interruptReceived j)).state = .Pending j) := by
  refine ⟨?_, fun i => rfl, fun i j => rfl⟩
  intro s i hs
  cases s with
  | Idle => exact absurd rfl hs
  | Pending i0 => exact ⟨rfl, rfl, rfl⟩
  | Resolving i0 => exact ⟨rfl, rfl, rfl⟩

/-- C4 witness: a second interrupt while one is pending is a fatal
protocol violation, instantiated at a concrete pending interrupt. -/
theorem claim_C4_witness :
    (ctrlStep (.Pending ⟨"i1", "t1", "approve search", none⟩)
      (.interruptReceived ⟨"i2", "t2", "other", none⟩)).outcome =
      .protocolViolation :=
  (claim_C4_interrupt_only_when_idle.1
    (.Pending ⟨"i1", "t1", "approve search", none⟩)
    ⟨"i2", "t2", "other", none⟩
    (by intro h; exact CtrlState.noConfusion h)).1

/-- C5: from `Pending` with a schema present, `edit` with args violating
the schema returns `InvalidResponse` and leaves the controller `Pending`
on the same interrupt (no payload is emitted, the interrupt context is
kept), and a subsequent `accept` from that same state succeeds and moves
to `Resolving`. -/
theorem claim_C5_invalid_edit_keeps_pending
    (i : Interrupt) (newArgs : Json) (p : Json → Bool)
    (hschema : i.schema = some p) (hviol : p newArgs = false) :
    ctrlStep (.Pending i) (.humanDecision (.edit newArgs)) =
      ⟨.Pending i, .invalidResponse, none⟩ ∧
    ctrlStep
      (ctrlStep (.Pending i) (.humanDecision (.edit newArgs))).state
      (.humanDecision .accept) =
      ⟨.Resolving i, .ok, some ⟨i.id, "accept", none, none⟩⟩ := by
  have hacc : schemaAccepts i newArgs = false := by
    simp [schemaAccepts, hschema, hviol]
  constructor
  · simp [ctrlStep, hacc]
  · simp [ctrlStep, hacc]

/-- C5 witness: instantiated at a concrete interrupt whose schema rejects
everything and at `null` proposed args. -/
theorem claim_C5_witness :
    ctrlStep (.Pending ⟨"i1", "t1", "d", some (fun _ => false)⟩)
      (.humanDecision (.edit .null)) =
      ⟨.Pending ⟨"i1", "t1", "d", some (fun _ => false)⟩,
        .invalidResponse, none⟩ :=
  (claim_C5_invalid_edit_keeps_pending
    ⟨"i1", "t1", "d", some (fun _ => false)⟩ .null (fun _ => false)
    rfl rfl).1

/-- C7 counterexample: the payload emitted for an `accept` decision on
interrupt `i1` is `interruptId = "i1"`, `decision = "accept"` with
neither `args` nor `responseText` present — so it is not the case that
exactly one of the two fields is present. -/
theorem claim_C7_counterexample :
    (ctrlStep (.Pending ⟨"i1", "t1", "approve search", none⟩)
      (.humanDecision .accept)).payload =
      some ⟨"i1", "accept", none, none⟩ ∧
    exactlyOnePresent ⟨"i1", "accept", none, none⟩ = false := by
  exact ⟨rfl, rfl⟩

/-- C7 (amended): every emitted resume payload has at most one of
`args` / `responseText` present — `args` exactly when the decision is
`"edit"`, `responseText` exactly when it is `"respond"`, and neither for
`"accept"` or `"reject"`; in particular the payload emitted for an
`accept` decision on an interrupt is
`interruptId = i.id, decision = "accept"` with both optional fields
absent. -/
theorem claim_C7_resume_payload_shape :
    (∀ s e pl, (ctrlStep s e).payload = some pl →
      ((pl.args.isSome = true ↔ pl.decision = "edit") ∧
        (pl.responseText.isSome = true ↔ pl.decision = "respond") ∧
        ¬(pl.args.isSome = true ∧ pl.responseText.isSome = true))) ∧
    (∀ i, (ctrlStep (.Pending i) (.humanDecision .accept)).payload =
      some ⟨i.id, "accept", none, none⟩) := by
  refine ⟨?_, fun i => rfl⟩
  intro s e pl hpl
  have hshape : pl.decision = "accept" ∧ pl.args = none ∧ pl.responseText = none ∨
      pl.decision = "edit" ∧ pl.args.isSome = true ∧ pl.responseText = none ∨
      pl.decision = "respond" ∧ pl.args = none ∧ pl.responseText.isSome = true ∨
      pl.decision = "reject" ∧ pl.args = none ∧ pl.responseText = none := by
    cases s with
    | Idle => cases e <;> simp [ctrlStep] at hpl
    | Pending i =>
        cases e with
        | interruptReceived j => simp [ctrlStep] at hpl
        | humanDecision d =>
            cases d with
            | accept =>
                simp only [ctrlStep, Option.some.injEq] at hpl
                subst hpl
                exact Or.inl ⟨rfl, rfl, rfl⟩
            | edit newArgs =>
                by_cases hacc : schemaAccepts i newArgs = true
                · simp only [ctrlStep, if_pos hacc, Option.some.injEq] at hpl
                  subst hpl
                  exact Or.inr (Or.inl ⟨rfl, rfl, rfl⟩)
                · simp only [ctrlStep, if_neg hacc] at hpl
                  exact Option.noConfusion hpl
            | respond text =>
                simp only [ctrlStep, Option.some.injEq] at hpl
                subst hpl
                exact Or.inr (Or.inr (Or.inl ⟨rfl, rfl, rfl⟩))
            | reject =>
                simp only [ctrlStep, Option.some.injEq] at hpl
                subst hpl
                exact Or.inr (Or.inr (Or.inr ⟨rfl, rfl, rfl⟩))
        | ack => simp [ctrlStep] at hpl
        | nack => simp [ctrlStep] at hpl
    | Resolving i => cases e <;> simp [ctrlStep] at hpl
  rcases hshape with ⟨hd, ha, hr⟩ | ⟨hd, ha, hr⟩ | ⟨hd, ha, hr⟩ | ⟨hd, ha, hr⟩ <;>
    rw [hd] <;> simp [ha, hr]

/-- C7 witness: payload-shape facts instantiated at the payload emitted by
an `edit` decision with no schema present. -/
theorem claim_C7_witness :
    ((some Json.null).isSome = true ↔ "edit" = "edit") ∧
    ((none : Option String).isSome = true ↔ "edit" = "respond") ∧
    ¬((some Json.null).isSome = true ∧ (none : Option String).isSome = true) :=
  claim_C7_resume_payload_shape.1
    (.Pending ⟨"i1", "t1", "d", none⟩) (.humanDecision (.edit .null))
    ⟨"i1", "edit", some .null, none⟩ rfl

lemma descendPath_head (fuel : Nat) (t : ConversationTree) (cid : String) :
    (descendPath fuel t cid).head? = some cid := by
  cases fuel with
  | zero => rfl
  | succ f =>
      simp only [descendPath]
      cases h : lastChild t cid <;> simp

lemma chain_descendPath (t : ConversationTree) (fuel : Nat) (cid : String) :
    List.Chain' (fun x y => lastChild t x = some y) (descendPath fuel t cid) := by
  induction fuel generalizing cid with
  | zero => simp [descendPath]
  | succ f ih =>
      simp only [descendPath]
      cases h : lastChild t cid with
      | none => simp
      | some c =>
          rw [List.chain'_cons']
          refine ⟨?_, ih c⟩
          intro b hb
          rw [descendPath_head f t c] at hb
          injection hb with hb
          rw [hb] at h
          exact h

lemma ancestorPath_getLast (fuel : Nat) (t : ConversationTree) (cid : String) :
    (ancestorPath fuel t cid).getLast? = some cid := by
  induction fuel generalizing cid with
  | zero => rfl
  | succ f ih =>
      simp only [ancestorPath]
      cases h : (findCheckpoint t cid).bind (fun c => c.parent) with
      | none => simp [h]
      | some p => simp [h, List.getLast?_concat]

lemma messagesAt_sublist_fold (t : ConversationTree) (path : List String)
    (cid : String) (hmem : cid ∈ path) :
    List.Sublist (messagesAt t cid)
      (path.foldr (fun c acc => messagesAt t c ++ acc) []) := by
  induction path with
  | nil => cases hmem
  | cons hd tl ih =>
      rcases List.mem_cons.mp hmem with rfl | htl
      · exact List.sublist_append_left _ _
      · exact (ih htl).trans (List.sublist_append_right _ _)

lemma ancestorPath_checkpoints_eq (f : Nat) (t₁ t₂ : ConversationTree)
    (h : t₁.checkpoints = t₂.checkpoints) (cid : String) :
    ancestorPath f t₁ cid = ancestorPath f t₂ cid := by
  induction f generalizing cid with
  | zero => rfl
  | succ f ih =>
      simp only [ancestorPath, findCheckpoint, h]
      cases (t₂.checkpoints.find? (fun c => c.id = cid)).bind (fun c => c.parent) with
      | none => rfl
      | some p =>
          show ancestorPath f t₁ p ++ [cid] = ancestorPath f t₂ p ++ [cid]
          rw [ih p]

/-- C6: with no explicit selection the active checkpoint path descends
into the most recently created child at every step (last-writer-wins); in
the concrete fork `r -> a -> b`, `r -> a -> c` the default path ends at
whichever of `b`/`c` was created last; and explicit `selectBranch(b)`
then `selectBranch(c)` succeeds, leaves checkpoints and messages intact,
yields the root-to-`c` path, and every message attached to a checkpoint
on that path appears in `activePath()` in arrival order. -/
theorem claim_C6_branch_selection :
    (∀ t : ConversationTree, t.selected = none →
      List.Chain' (fun x y => lastChild t x = some y) (checkpointPath t)) ∧
    ((addCheckpoint { checkpoints := [], messages := [], selected := none }
          ⟨"r", none, ""⟩).bind
        (fun t => (addCheckpoint t ⟨"a", some "r", ""⟩).bind
          (fun t => (addCheckpoint t ⟨"b", some "a", ""⟩).bind
            (fun t => addCheckpoint t ⟨"c", some "a", ""⟩))) =
      .ok { checkpoints := [⟨"r", none, ""⟩, ⟨"a", some "r", ""⟩,
              ⟨"b", some "a", ""⟩, ⟨"c", some "a", ""⟩],
            messages := [], selected := none } ∧
      checkpointPath { checkpoints := [⟨"r", none, ""⟩, ⟨"a", some "r", ""⟩,
                         ⟨"b", some "a", ""⟩, ⟨"c", some "a", ""⟩],
                       messages := [], selected := none } = ["r", "a", "c"] ∧
      checkpointPath { checkpoints := [⟨"r", none, ""⟩, ⟨"a", some "r", ""⟩,
                         ⟨"c", some "a", ""⟩, ⟨"b", some "a", ""⟩],
                       messages := [], selected := none } = ["r", "a", "b"]) ∧
    (∀ (t : ConversationTree) (b c : String),
      hasCheckpoint t b = true → hasCheckpoint t c = true →
      (selectBranch t b).bind (fun tb => selectBranch tb c) =
        .ok { t with selected := some c } ∧
      selectBranch t c = .ok { t with selected := some c } ∧
      checkpointPath { t with selected := some c } =
        ancestorPath t.checkpoints.length t c ∧
      (checkpointPath { t with selected := some c }).getLast? = some c ∧
      (∀ cid ∈ checkpointPath { t with selected := some c },
        List.Sublist (messagesAt t cid)
          (activePath { t with selected := some c })) ∧
      (∀ pm ∈ t.messages, pm.1 ∈ checkpointPath { t with selected := some c } →
        pm.2 ∈ activePath { t with selected := some c })) := by
  refine ⟨?_, ⟨rfl, rfl, rfl⟩, ?_⟩
  · intro t hsel
    rw [checkpointPath.eq_def, hsel]
    cases rootId t with
    | none => simp
    | some r => exact chain_descendPath t _ r
  · intro t b c hb hc
    have hsb : selectBranch t b = .ok { t with selected := some b } := by
      rw [selectBranch.eq_def, if_pos hb]
    have hcb : hasCheckpoint { t with selected := some b } c = true := hc
    have hsc : selectBranch { t with selected := some b } c =
        .ok { t with selected := some c } := by
      rw [selectBranch.eq_def, if_pos hcb]
    have hpath : checkpointPath { t with selected := some c } =
        ancestorPath t.checkpoints.length t c :=
      ancestorPath_checkpoints_eq t.checkpoints.length
        { t with selected := some c } t rfl c
    refine ⟨by rw [hsb]; exact hsc, by rw [selectBranch.eq_def, if_pos hc],
      hpath, ?_, ?_, ?_⟩
    · rw [hpath]
      exact ancestorPath_getLast _ _ _
    · intro cid hcid
      exact messagesAt_sublist_fold _ _ _ hcid
    · intro pm hpm hcid
      have hmem : pm.2 ∈ messagesAt { t with selected := some c } pm.1 := by
        simp only [messagesAt, List.mem_map]
        exact ⟨pm, List.mem_filter.mpr ⟨hpm, by simp⟩, rfl⟩
      exact (messagesAt_sublist_fold _ _ _ hcid).subset hmem

/-- C6 witness: the branch-selection facts instantiated at the concrete
fork `r -> a -> b`, `r -> a -> c` with one message attached to `a`:
selecting `b` then `c` yields the selection of `c`. -/
theorem claim_C6_witness :
    (selectBranch { checkpoints := [⟨"r", none, ""⟩, ⟨"a", some "r", ""⟩,
                      ⟨"b", some "a", ""⟩, ⟨"c", some "a", ""⟩],
                    messages := [("a", ⟨"m1", "hello"⟩)],
                    selected := none } "b").bind
      (fun tb => selectBranch tb "c") =
      .ok { checkpoints := [⟨"r", none, ""⟩, ⟨"a", some "r", ""⟩,
              ⟨"b", some "a", ""⟩, ⟨"c", some "a", ""⟩],
            messages := [("a", ⟨"m1", "hello"⟩)], selected := some "c" } :=
  (claim_C6_branch_selection.2.2
    { checkpoints := [⟨"r", none, ""⟩, ⟨"a", some "r", ""⟩,
        ⟨"b", some "a", ""⟩, ⟨"c", some "a", ""⟩],
      messages := [("a", ⟨"m1", "hello"⟩)], selected := none }
    "b" "c" (by decide) (by decide)).1

/-- C9 witness: the amended header characterization instantiated at a
non-empty URL and the non-empty token `"tok"`. -/
theorem claim_C9_witness :
    (authHeader { apiUrl := "u",
                  defaultHeaders := [("Authorization", "Bearer " ++ "tok")] } =
      some ("Bearer " ++ "tok")) ↔
      ((some "tok" : Option String) = some "tok" ∧ "tok" ≠ "") :=
  ((claim_C9_createClient "u" (some "tok")).2
    { apiUrl := "u", defaultHeaders := [("Authorization", "Bearer " ++ "tok")] }
    (by rfl)).1 "tok"

/-! ## Roundtrip lemmas for the strict parser -/

lemma digitChar_isDigit (d : Nat) : isDigitChar (digitChar d) = true := by
  unfold digitChar
  split <;> decide

lemma digitVal_digitChar (d : Nat) (h : d < 10) : digitVal (digitChar d) = d := by
  interval_cases d <;> decide

lemma natDigitsRec_ne_nil (n : Nat) : natDigitsRec n ≠ [] := by
  rw [natDigitsRec.eq_def]
  split <;> simp

lemma natDigitsRec_digits (n : Nat) : ∀ c ∈ natDigitsRec n, isDigitChar c = true := by
  induction n using Nat.strong_induction_on with
  | _ n ih =>
      intro c hc
      rw [natDigitsRec.eq_def] at hc
      by_cases h : n < 10
      · rw [if_pos h] at hc
        simp only [List.mem_singleton] at hc
        subst hc
        exact digitChar_isDigit n
      · rw [if_neg h] at hc
        rcases List.mem_append.mp hc with h1 | h2
        · exact ih (n / 10) (Nat.div_lt_self (by omega) (by omega)) c h1
        · simp only [List.mem_singleton] at h2
          subst h2
          exact digitChar_isDigit (n % 10)

lemma foldl_natDigitsRec (n : Nat) : ∀ a : Nat,
    (natDigitsRec n).foldl (fun acc c => 10 * acc + digitVal c) a =
      a * 10 ^ (natDigitsRec n).length + n := by
  induction n using Nat.strong_induction_on with
  | _ n ih =>
      intro a
      rw [natDigitsRec.eq_def]
      by_cases h : n < 10
      · rw [if_pos h]
        simp only [List.foldl_cons, List.foldl_nil, List.length_singleton]
        rw [digitVal_digitChar n h]
        omega
      · rw [if_neg h]
        rw [List.foldl_append, List.length_append]
        rw [ih (n / 10) (Nat.div_lt_self (by omega) (by omega)) a]
        simp only [List.foldl_cons, List.foldl_nil, List.length_singleton]
        rw [digitVal_digitChar (n % 10) (by omega)]
        rw [pow_succ, ← mul_assoc]
        generalize a * 10 ^ (natDigitsRec (n / 10)).length = A
        omega

lemma natDigitsAux_eq (fuel : Nat) : ∀ (n : Nat) (acc : List Char), n ≤ fuel →
    natDigitsAux fuel n acc = natDigitsRec n ++ acc := by
  induction fuel with
  | zero =>
      intro n acc hf
      have hn : n = 0 := by omega
      subst hn
      rw [natDigitsAux, natDigitsRec.eq_def, if_pos (by omega)]
      rfl
  | succ f ih =>
      intro n acc hf
      rw [natDigitsAux]
      by_cases h : n < 10
      · rw [if_pos h, natDigitsRec.eq_def, if_pos h]
        rfl
      · rw [if_neg h, ih (n / 10) _ (by omega)]
        conv_rhs => rw [natDigitsRec.eq_def]
        rw [if_neg h]
        simp [List.append_assoc]

lemma natDigits_eq (n : Nat) : natDigits n = natDigitsRec n := by
  unfold natDigits
  rw [natDigitsAux_eq n n [] le_rfl, List.append_nil]

lemma takeWhile_digits_append (l r : List Char)
    (hl : ∀ c ∈ l, isDigitChar c = true) (hr : headNotDigit r = true) :
    (l ++ r).takeWhile isDigitChar = l ∧ (l ++ r).dropWhile isDigitChar = r := by
  induction l with
  | nil =>
      simp only [List.nil_append]
      cases r with
      | nil => exact ⟨rfl, rfl⟩
      | cons c cs =>
          have hc : isDigitChar c = false := by
            simpa [headNotDigit] using hr
          constructor <;>
            simp [List.takeWhile_cons, List.dropWhile_cons, hc]
  | cons c cs ih =>
      have hc : isDigitChar c = true := hl c (by simp)
      obtain ⟨h1, h2⟩ := ih (fun x hx => hl x (by simp [hx]))
      constructor <;>
        simp [List.takeWhile_cons, List.dropWhile_cons, hc, h1, h2]

lemma parseDigits_round (n : Nat) (r : List Char) (hr : headNotDigit r = true) :
    parseDigits (natDigitsRec n ++ r) = some (n, r) := by
  obtain ⟨ht, hd⟩ := takeWhile_digits_append (natDigitsRec n) r (natDigitsRec_digits n) hr
  unfold parseDigits
  rw [ht, hd]
  have hne : (natDigitsRec n).isEmpty = false := by
    cases hh : natDigitsRec n with
    | nil => exact absurd hh (natDigitsRec_ne_nil n)
    | cons d ds => rfl
  rw [if_neg (by simp [hne])]
  rw [foldl_natDigitsRec n 0]
  simp

lemma escString_cons (c : Char) (s : List Char) :
    escString (c :: s) = escChar c ++ escString s := rfl

lemma parseStrBody_round (s : List Char) : ∀ (f : Nat) (r : List Char),
    (escString s).length + 1 ≤ f →
    parseStrBody f (escString s ++ ('"' :: r)) = some (s, r) := by
  induction s with
  | nil =>
      intro f r hf
      obtain ⟨g, rfl⟩ : ∃ g, f = g + 1 := ⟨f - 1, by omega⟩
      rfl
  | cons c cs ih =>
      intro f r hf
      rw [escString_cons] at hf ⊢
      unfold escChar at hf ⊢
      by_cases hesc : c = '"' ∨ c = '\\'
      · rw [if_pos hesc] at hf ⊢
        simp only [List.length_append, List.length_cons] at hf
        obtain ⟨g, rfl⟩ : ∃ g, f = g + 1 := ⟨f - 1, by omega⟩
        show parseStrBody (g + 1) ('\\' :: c :: (escString cs ++ ('"' :: r))) =
          some (c :: cs, r)
        have hstep : parseStrBody (g + 1)
            ('\\' :: c :: (escString cs ++ ('"' :: r))) =
            (parseStrBody g (escString cs ++ ('"' :: r))).map
              (fun p => (c :: p.1, p.2)) := rfl
        rw [hstep, ih g r (by omega)]
        rfl
      · rw [if_neg hesc] at hf ⊢
        push_neg at hesc
        simp only [List.length_append, List.length_cons] at hf
        obtain ⟨g, rfl⟩ : ∃ g, f = g + 1 := ⟨f - 1, by omega⟩
        show parseStrBody (g + 1) (c :: (escString cs ++ ('"' :: r))) =
          some (c :: cs, r)
        simp only [parseStrBody]
        rw [if_neg hesc.2, if_neg hesc.1, ih g r (by omega)]
        rfl

lemma isDigitChar_ne_of_false (c x : Char) (h : isDigitChar c = true)
    (hx : isDigitChar x = false) : c ≠ x := by
  rintro rfl
  rw [h] at hx
  exact Bool.noConfusion hx

lemma serVal_head (v : Json) :
    ∃ c cs, serVal v = c :: cs ∧ c ≠ ']' ∧ c ≠ '\x7d' := by
  cases v with
  | null => exact ⟨'n', _, rfl, by decide, by decide⟩
  | bool b =>
      cases b with
      | false => exact ⟨'f', _, rfl, by decide, by decide⟩
      | true => exact ⟨'t', _, rfl, by decide, by decide⟩
  | num n =>
      show ∃ c cs, intChars n = c :: cs ∧ c ≠ ']' ∧ c ≠ '\x7d'
      unfold intChars
      by_cases h : n < 0
      · rw [if_pos h]
        exact ⟨'-', _, rfl, by decide, by decide⟩
      · rw [if_neg h, natDigits_eq]
        cases hh : natDigitsRec n.toNat with
        | nil => exact absurd hh (natDigitsRec_ne_nil _)
        | cons d ds =>
            have hd : isDigitChar d = true :=
              natDigitsRec_digits n.toNat d (by rw [hh]; simp)
            exact ⟨d, ds, rfl,
              isDigitChar_ne_of_false d ']' hd (by decide),
              isDigitChar_ne_of_false d '\x7d' hd (by decide)⟩
  | str s => exact ⟨'"', _, rfl, by decide, by decide⟩
  | arr l => exact ⟨'[', _, rfl, by decide, by decide⟩
  | obj l => exact ⟨'\x7b', _, rfl, by decide, by decide⟩

lemma serItems_cons (v : Json) (tl : JsonList) :
    ∃ tail, serItems (.cons v tl) = serVal v ++ tail := by
  cases tl with
  | nil => exact ⟨[']'], rfl⟩
  | cons w tl2 => exact ⟨',' :: serItems (.cons w tl2), rfl⟩

lemma serFields_cons (k : List Char) (v : Json) (tl : JsonFields) :
    ∃ tail, serFields (.cons k v tl) = '"' :: tail := by
  cases tl with
  | nil => exact ⟨escString k ++ ['"', ':'] ++ (serVal v ++ ['\x7d']), rfl⟩
  | cons k2 w tl2 =>
      exact ⟨escString k ++ ['"', ':'] ++
        (serVal v ++ (',' :: serFields (.cons k2 w tl2))), rfl⟩

lemma parseVal_digit_step (f : Nat) (c : Char) (rest : List Char)
    (h : isDigitChar c = true) :
    parseVal (f + 1) (c :: rest) =
      (parseDigits (c :: rest)).map (fun p => (Json.num (p.1 : Int), p.2)) := by
  have h1 : c ≠ 'n' := by rintro rfl; exact absurd h (by decide)
  have h2 : c ≠ 't' := by rintro rfl; exact absurd h (by decide)
  have h3 : c ≠ 'f' := by rintro rfl; exact absurd h (by decide)
  have h4 : c ≠ '"' := by rintro rfl; exact absurd h (by decide)
  have h5 : c ≠ '-' := by rintro rfl; exact absurd h (by decide)
  have h6 : c ≠ '[' := by rintro rfl; exact absurd h (by decide)
  have h7 : c ≠ '\x7b' := by rintro rfl; exact absurd h (by decide)
  simp only [parseVal]
  rw [if_neg h1, if_neg h2, if_neg h3, if_neg h4, if_neg h5, if_neg h6,
    if_neg h7, if_pos h]

mutual
theorem roundVal (v : Json) : ∀ (f : Nat) (r : List Char),
    (serVal v).length ≤ f → headNotDigit r = true →
    parseVal f (serVal v ++ r) = some (v, r) := by
  cases v with
  | null =>
      intro f r hf _
      simp only [serVal, nullChars, List.length_cons, List.length_nil] at hf
      obtain ⟨g, rfl⟩ : ∃ g, f = g + 1 := ⟨f - 1, by omega⟩
      rfl
  | bool b =>
      cases b with
      | false =>
          intro f r hf _
          simp only [serVal, falseChars, List.length_cons,
            List.length_nil] at hf
          obtain ⟨g, rfl⟩ : ∃ g, f = g + 1 := ⟨f - 1, by omega⟩
          rfl
      | true =>
          intro f r hf _
          simp only [serVal, trueChars, List.length_cons,
            List.length_nil] at hf
          obtain ⟨g, rfl⟩ : ∃ g, f = g + 1 := ⟨f - 1, by omega⟩
          rfl
  | num n =>
      intro f r hf hr
      simp only [serVal] at hf ⊢
      unfold intChars at hf ⊢
      by_cases hneg : n < 0
      · rw [if_pos hneg, natDigits_eq] at hf ⊢
        simp only [List.length_cons] at hf
        obtain ⟨g, rfl⟩ : ∃ g, f = g + 1 := ⟨f - 1, by omega⟩
        have hstep : parseVal (g + 1) ('-' :: (natDigitsRec n.natAbs ++ r)) =
            (parseDigits (natDigitsRec n.natAbs ++ r)).map
              (fun p => (Json.num (-(p.1 : Int)), p.2)) := rfl
        show parseVal (g + 1) ('-' :: (natDigitsRec n.natAbs ++ r)) =
          some (.num n, r)
        rw [hstep, parseDigits_round _ _ hr]
        show some (Json.num (-(n.natAbs : Int)), r) = some (Json.num n, r)
        have hn : -(n.natAbs : Int) = n := by omega
        rw [hn]
      · rw [if_neg hneg, natDigits_eq] at hf ⊢
        cases hh : natDigitsRec n.toNat with
        | nil => exact absurd hh (natDigitsRec_ne_nil _)
        | cons d ds =>
            have hd : isDigitChar d = true :=
              natDigitsRec_digits n.toNat d (by rw [hh]; simp)
            rw [hh] at hf
            simp only [List.length_cons] at hf
            obtain ⟨g, rfl⟩ : ∃ g, f = g + 1 := ⟨f - 1, by omega⟩
            show parseVal (g + 1) (d :: (ds ++ r)) = some (.num n, r)
            rw [parseVal_digit_step g d (ds ++ r) hd]
            show (parseDigits ((d :: ds) ++ r)).map
              (fun p => (Json.num (p.1 : Int), p.2)) = some (.num n, r)
            rw [← hh, parseDigits_round _ _ hr]
            show some (Json.num ((n.toNat : Nat) : Int), r) = some (Json.num n, r)
            have hn : ((n.toNat : Nat) : Int) = n := by omega
            rw [hn]
  | str s =>
      intro f r hf _
      simp only [serVal, List.length_cons, List.length_append,
        List.length_singleton] at hf
      obtain ⟨g, rfl⟩ : ∃ g, f = g + 1 := ⟨f - 1, by omega⟩
      show parseVal (g + 1) ('"' :: ((escString s ++ ['"']) ++ r)) =
        some (.str s, r)
      rw [List.append_assoc]
      show parseVal (g + 1) ('"' :: (escString s ++ ('"' :: r))) =
        some (.str s, r)
      have hstep : parseVal (g + 1) ('"' :: (escString s ++ ('"' :: r))) =
          (parseStrBody g (escString s ++ ('"' :: r))).map
            (fun p => (Json.str p.1, p.2)) := rfl
      rw [hstep, parseStrBody_round s g r (by omega)]
      rfl
  | arr l =>
      cases l with
      | nil =>
          intro f r hf _
          simp only [serVal, serItems, List.length_cons, List.length_nil] at hf
          obtain ⟨g, rfl⟩ : ∃ g, f = g + 1 := ⟨f - 1, by omega⟩
          rfl
      | cons v tl =>
          intro f r hf _
          simp only [serVal, List.length_cons] at hf
          obtain ⟨g, rfl⟩ : ∃ g, f = g + 1 := ⟨f - 1, by omega⟩
          show parseVal (g + 1) ('[' :: (serItems (.cons v tl) ++ r)) =
            some (.arr (.cons v tl), r)
          have hstep : parseVal (g + 1) ('[' :: (serItems (.cons v tl) ++ r)) =
              (if (serItems (.cons v tl) ++ r).head? = some ']' then
                some (.arr .nil, (serItems (.cons v tl) ++ r).tail)
              else (parseItems g (serItems (.cons v tl) ++ r)).map
                (fun p => (Json.arr p.1, p.2))) := rfl
          obtain ⟨tail, htail⟩ := serItems_cons v tl
          obtain ⟨c, cs, hcs, hc1, _⟩ := serVal_head v
          have hne : (serItems (.cons v tl) ++ r).head? ≠ some ']' := by
            rw [htail, hcs]
            simp only [List.cons_append, List.head?_cons]
            intro hcon
            injection hcon with hcon
            exact hc1 hcon
          rw [hstep, if_neg hne,
            roundItems (.cons v tl) g r
              (by intro hx; exact JsonList.noConfusion hx) (by omega)]
          rfl
  | obj l =>
      cases l with
      | nil =>
          intro f r hf _
          simp only [serVal, serFields, List.length_cons, List.length_nil] at hf
          obtain ⟨g, rfl⟩ : ∃ g, f = g + 1 := ⟨f - 1, by omega⟩
          rfl
      | cons k v tl =>
          intro f r hf _
          simp only [serVal, List.length_cons] at hf
          obtain ⟨g, rfl⟩ : ∃ g, f = g + 1 := ⟨f - 1, by omega⟩
          show parseVal (g + 1) ('\x7b' :: (serFields (.cons k v tl) ++ r)) =
            some (.obj (.cons k v tl), r)
          have hstep : parseVal (g + 1)
              ('\x7b' :: (serFields (.cons k v tl) ++ r)) =
              (if (serFields (.cons k v tl) ++ r).head? = some '\x7d' then
                some (.obj .nil, (serFields (.cons k v tl) ++ r).tail)
              else (parseFields g (serFields (.cons k v tl) ++ r)).map
                (fun p => (Json.obj p.1, p.2))) := rfl
          obtain ⟨tail, htail⟩ := serFields_cons k v tl
          have hne : (serFields (.cons k v tl) ++ r).head? ≠ some '\x7d' := by
            rw [htail]
            simp only [List.cons_append, List.head?_cons]
            intro hcon
            injection hcon with hcon
            exact absurd hcon (by decide)
          rw [hstep, if_neg hne,
            roundFields (.cons k v tl) g r
              (by intro hx; exact JsonFields.noConfusion hx) (by omega)]
          rfl

theorem roundItems (l : JsonList) : ∀ (f : Nat) (r : List Char), l ≠ .nil →
    (serItems l).length ≤ f →
    parseItems f (serItems l ++ r) = some (l, r) := by
  cases l with
  | nil =>
      intro f r hne _
      exact absurd rfl hne
  | cons v tl =>
      intro f r _ hf
      cases tl with
      | nil =>
          simp only [serItems, List.length_append, List.length_cons,
            List.length_nil] at hf
          obtain ⟨g, rfl⟩ : ∃ g, f = g + 1 := ⟨f - 1, by omega⟩
          have hv : parseVal g (serVal v ++ (']' :: r)) = some (v, ']' :: r) :=
            roundVal v g (']' :: r) (by omega) rfl
          simp only [serItems]
          rw [List.append_assoc]
          show parseItems (g + 1) (serVal v ++ (']' :: r)) =
            some (.cons v .nil, r)
          simp only [parseItems, hv]
      | cons w tl2 =>
          simp only [serItems, List.length_append, List.length_cons] at hf
          obtain ⟨g, rfl⟩ : ∃ g, f = g + 1 := ⟨f - 1, by omega⟩
          have hv : parseVal g
              (serVal v ++ (',' :: (serItems (.cons w tl2) ++ r))) =
              some (v, ',' :: (serItems (.cons w tl2) ++ r)) :=
            roundVal v g _ (by omega) rfl
          have hi : parseItems g (serItems (.cons w tl2) ++ r) =
              some (.cons w tl2, r) :=
            roundItems (.cons w tl2) g r
              (by intro hx; exact JsonList.noConfusion hx) (by omega)
          simp only [serItems]
          rw [List.append_assoc]
          show parseItems (g + 1)
            (serVal v ++ (',' :: (serItems (.cons w tl2) ++ r))) =
            some (.cons v (.cons w tl2), r)
          simp only [parseItems, hv, hi]

theorem roundFields (lf : JsonFields) : ∀ (f : Nat) (r : List Char),
    lf ≠ .nil → (serFields lf).length ≤ f →
    parseFields f (serFields lf ++ r) = some (lf, r) := by
  cases lf with
  | nil =>
      intro f r hne _
      exact absurd rfl hne
  | cons k v tl =>
      intro f r _ hf
      cases tl with
      | nil =>
          simp only [serFields, List.length_append, List.length_cons,
            List.length_nil] at hf
          obtain ⟨g, rfl⟩ : ∃ g, f = g + 1 := ⟨f - 1, by omega⟩
          have hk : parseStrBody g
              (escString k ++ ('"' :: (':' :: (serVal v ++ ('\x7d' :: r))))) =
              some (k, ':' :: (serVal v ++ ('\x7d' :: r))) :=
            parseStrBody_round k g _ (by omega)
          have hv : parseVal g (serVal v ++ ('\x7d' :: r)) =
              some (v, '\x7d' :: r) :=
            roundVal v g _ (by omega) rfl
          have hin : (('"' :: (escString k ++ ['"', ':'])) ++
              (serVal v ++ ['\x7d'])) ++ r =
              '"' :: (escString k ++
                ('"' :: (':' :: (serVal v ++ ('\x7d' :: r))))) := by
            simp [List.append_assoc]
          show parseFields (g + 1) ((('"' :: (escString k ++ ['"', ':'])) ++
              (serVal v ++ ['\x7d'])) ++ r) = some (.cons k v .nil, r)
          rw [hin]
          simp only [parseFields, hk, hv]
      | cons k2 w tl2 =>
          simp only [serFields, List.length_append, List.length_cons] at hf
          obtain ⟨g, rfl⟩ : ∃ g, f = g + 1 := ⟨f - 1, by omega⟩
          have hk : parseStrBody g
              (escString k ++ ('"' :: (':' :: (serVal v ++
                (',' :: (serFields (.cons k2 w tl2) ++ r)))))) =
              some (k, ':' :: (serVal v ++
                (',' :: (serFields (.cons k2 w tl2) ++ r)))) :=
            parseStrBody_round k g _ (by omega)
          have hv : parseVal g (serVal v ++
              (',' :: (serFields (.cons k2 w tl2) ++ r))) =
              some (v, ',' :: (serFields (.cons k2 w tl2) ++ r)) :=
            roundVal v g _ (by omega) rfl
          have hrest : parseFields g (serFields (.cons k2 w tl2) ++ r) =
              some (.cons k2 w tl2, r) :=
            roundFields (.cons k2 w tl2) g r
              (by intro hx; exact JsonFields.noConfusion hx) (by omega)
          have hin : (('"' :: (escString k ++ ['"', ':'])) ++
              (serVal v ++ (',' :: serFields (.cons k2 w tl2)))) ++ r =
              '"' :: (escString k ++ ('"' :: (':' :: (serVal v ++
                (',' :: (serFields (.cons k2 w tl2) ++ r)))))) := by
            simp [List.append_assoc]
          show parseFields (g + 1) ((('"' :: (escString k ++ ['"', ':'])) ++
              (serVal v ++ (',' :: serFields (.cons k2 w tl2)))) ++ r) =
            some (.cons k v (.cons k2 w tl2), r)
          rw [hin]
          simp only [parseFields, hk, hv, hrest]
end

theorem strictParse_serVal (v : Json) : strictParse (serVal v) = some v := by
  unfold strictParse
  have h := roundVal v ((serVal v).length + 1) [] (by omega) rfl
  rw [List.append_nil] at h
  rw [h]

/-! ## Accumulator lemmas -/

lemma ingest_buffer (a : PartialJSONAccumulator) (frag : List Char) :
    (ingest a frag).2.buffer = a.buffer ++ frag := by
  cases h : repairParse (a.buffer ++ frag) <;> simp [ingest, h]

lemma ingest_best_of_some (a : PartialJSONAccumulator) (frag : List Char)
    (v : Json) (h : repairParse (a.buffer ++ frag) = some v) :
    (ingest a frag).1 = some v ∧ (ingest a frag).2.best = some v := by
  simp [ingest, h]

lemma ingest_best_of_none (a : PartialJSONAccumulator) (frag : List Char)
    (h : repairParse (a.buffer ++ frag) = none) :
    (ingest a frag).1 = a.best ∧ (ingest a frag).2.best = a.best := by
  simp [ingest, h]

lemma ingest_fst_eq_best (a : PartialJSONAccumulator) (frag : List Char) :
    (ingest a frag).1 = (ingest a frag).2.best := by
  cases h : repairParse (a.buffer ++ frag) <;> simp [ingest, h]

lemma joinFragments_cons (f : List Char) (fs : List (List Char)) :
    joinFragments (f :: fs) = f ++ joinFragments fs := rfl

lemma joinFragments_append (fs gs : List (List Char)) :
    joinFragments (fs ++ gs) = joinFragments fs ++ joinFragments gs := by
  induction fs with
  | nil => rfl
  | cons f fs ih =>
      simp only [List.cons_append, joinFragments_cons, ih, List.append_assoc]

lemma joinFragments_snoc (fs : List (List Char)) (f : List Char) :
    joinFragments (fs ++ [f]) = joinFragments fs ++ f := by
  rw [joinFragments_append]
  show joinFragments fs ++ (f ++ []) = joinFragments fs ++ f
  rw [List.append_nil]

lemma ingestAll_append (a : PartialJSONAccumulator)
    (fs gs : List (List Char)) :
    ingestAll a (fs ++ gs) = ingestAll (ingestAll a fs) gs := by
  simp [ingestAll, List.foldl_append]

lemma ingestAll_buffer (fs : List (List Char)) : ∀ a : PartialJSONAccumulator,
    (ingestAll a fs).buffer = a.buffer ++ joinFragments fs := by
  induction fs with
  | nil =>
      intro a
      show a.buffer = a.buffer ++ []
      rw [List.append_nil]
  | cons f fs ih =>
      intro a
      show (ingestAll (ingest a f).2 fs).buffer = _
      rw [ih, ingest_buffer, joinFragments_cons, List.append_assoc]

lemma prefixBuffers_snoc (fs : List (List Char)) (f : List Char) :
    prefixBuffers (fs ++ [f]) =
      prefixBuffers fs ++ [joinFragments (fs ++ [f])] := by
  unfold prefixBuffers
  rw [List.length_append, List.length_singleton, List.range_succ,
    List.map_append]
  congr 1
  · apply List.map_congr_left
    intro i hi
    rw [List.mem_range] at hi
    rw [List.take_append_of_le_length (by omega)]
  · simp [List.take_of_length_le]

lemma latestRepair_snoc (fs : List (List Char)) (f : List Char) :
    latestRepair (fs ++ [f]) =
      match repairParse (joinFragments (fs ++ [f])) with
      | some v => some v
      | none => latestRepair fs := by
  unfold latestRepair
  rw [prefixBuffers_snoc, List.reverse_append]
  cases h : repairParse (joinFragments (fs ++ [f])) <;>
    simp [List.findSome?_cons, h]

lemma ingestAll_best_eq (fs : List (List Char)) :
    (ingestAll initAccumulator fs).best = latestRepair fs := by
  induction fs using List.reverseRecOn with
  | nil => rfl
  | append_singleton fs f ih =>
      rw [ingestAll_append, latestRepair_snoc]
      have hbuf : (ingestAll initAccumulator fs).buffer = joinFragments fs := by
        rw [ingestAll_buffer]
        rfl
      cases h : repairParse (joinFragments (fs ++ [f])) with
      | some v =>
          have h' : repairParse
              ((ingestAll initAccumulator fs).buffer ++ f) = some v := by
            rw [hbuf, ← joinFragments_snoc, h]
          show (ingest (ingestAll initAccumulator fs) f).2.best = some v
          exact (ingest_best_of_some _ _ _ h').2
      | none =>
          have h' : repairParse
              ((ingestAll initAccumulator fs).buffer ++ f) = none := by
            rw [hbuf, ← joinFragments_snoc, h]
          show (ingest (ingestAll initAccumulator fs) f).2.best =
            latestRepair fs
          rw [(ingest_best_of_none _ _ h').2, ih]

lemma best_strictParse (fs : List (List Char)) (v : Json)
    (h : (ingestAll initAccumulator fs).best = some v) :
    ∃ i, i < fs.length ∧
      strictParse (joinFragments (fs.take (i + 1)) ++
        closeSuffix (joinFragments (fs.take (i + 1)))) = some v := by
  rw [ingestAll_best_eq] at h
  unfold latestRepair at h
  obtain ⟨b, hb, hpb⟩ := List.exists_of_findSome?_eq_some h
  rw [List.mem_reverse] at hb
  unfold prefixBuffers at hb
  obtain ⟨i, hi, hbi⟩ := List.mem_map.mp hb
  rw [List.mem_range] at hi
  refine ⟨i, hi, ?_⟩
  rw [hbi]
  exact hpb

/-- C1: for every JSON value `v` and every partition of its serialization
into fragments at arbitrary boundaries, feeding the fragments in order to
a fresh PartialJSONAccumulator and calling `finalize()` returns exactly
`v`. -/
theorem claim_C1_roundtrip (v : Json) (fragments : List (List Char))
    (h : joinFragments fragments = serVal v) :
    finalize (ingestAll initAccumulator fragments) = .ok v := by
  have hbuf : (ingestAll initAccumulator fragments).buffer = serVal v := by
    rw [ingestAll_buffer, ← h]
    rfl
  unfold finalize
  rw [hbuf, strictParse_serVal]

/-- C1 witness: the spec's own scenario — the two fragments of the
serialization of the object mapping `"q"` to `"langgraph"`, split inside
the string literal, finalize to exactly that object. -/
theorem claim_C1_witness :
    joinFragments ["\x7b\"q\":\"lang".data, "graph\"\x7d".data] =
      serVal (Json.obj (.cons ['q'] (.str "langgraph".data) .nil)) ∧
    finalize (ingestAll initAccumulator
        ["\x7b\"q\":\"lang".data, "graph\"\x7d".data]) =
      .ok (Json.obj (.cons ['q'] (.str "langgraph".data) .nil)) :=
  ⟨by decide, claim_C1_roundtrip _ _ (by decide)⟩

/-- C2: the accumulator's current value after any fragment sequence is the
value of the most recent successful repair-and-parse over the buffers seen
so far; a step whose repair-and-parse succeeds returns (and stores) that
new value, and a step whose repair-and-parse fails returns (and keeps) the
previous best value — no regression to a staler value. -/
theorem claim_C2_most_recent (fragments : List (List Char)) :
    (ingestAll initAccumulator fragments).best = latestRepair fragments ∧
    (∀ (a : PartialJSONAccumulator) (frag : List Char) (v : Json),
      repairParse (a.buffer ++ frag) = some v →
      (ingest a frag).1 = some v ∧ (ingest a frag).2.best = some v) ∧
    (∀ (a : PartialJSONAccumulator) (frag : List Char),
      repairParse (a.buffer ++ frag) = none →
      (ingest a frag).1 = a.best ∧ (ingest a frag).2.best = a.best) :=
  ⟨ingestAll_best_eq fragments,
    fun a frag v h => ingest_best_of_some a frag v h,
    fun a frag h => ingest_best_of_none a frag h⟩

/-- C2 witness: a fragment whose buffer repairs to the number `1` is
returned at once, and a lone minus sign leaves the (empty) previous best
in place. -/
theorem claim_C2_witness :
    ((ingest initAccumulator ['1']).1 = some (Json.num 1) ∧
      (ingest initAccumulator ['1']).2.best = some (Json.num 1)) ∧
    (ingest initAccumulator ['-']).1 = none :=
  ⟨(claim_C2_most_recent []).2.1 initAccumulator ['1'] (Json.num 1) rfl,
    ((claim_C2_most_recent []).2.2 initAccumulator ['-'] rfl).1⟩

/-- C3: every value returned by `ingest` is itself valid JSON: the value
returned for the latest fragment is the stored best value, and whenever
that is some `v`, `v` is the result of a successful strict parse of one of
the accumulated buffers extended by its synthesized closing suffix. -/
theorem claim_C3_intermediate_valid (fragments : List (List Char))
    (frag : List Char) (v : Json)
    (h : (ingest (ingestAll initAccumulator fragments) frag).1 = some v) :
    ∃ i, i < (fragments ++ [frag]).length ∧
      strictParse (joinFragments ((fragments ++ [frag]).take (i + 1)) ++
        closeSuffix (joinFragments ((fragments ++ [frag]).take (i + 1)))) =
        some v := by
  rw [ingest_fst_eq_best] at h
  have hbest : (ingestAll initAccumulator (fragments ++ [frag])).best =
      some v := by
    rw [ingestAll_append]
    exact h
  exact best_strictParse (fragments ++ [frag]) v hbest

/-- C3 witness: the single fragment `"[1"` repairs to the array `[1]`,
obtained as the strict parse of the buffer plus its synthesized `"]"`
suffix. -/
theorem claim_C3_witness :
    ∃ i, i < (([] : List (List Char)) ++ ["[1".data]).length ∧
      strictParse (joinFragments ((([] : List (List Char)) ++
          ["[1".data]).take (i + 1)) ++
        closeSuffix (joinFragments ((([] : List (List Char)) ++
          ["[1".data]).take (i + 1)))) =
        some (Json.arr (.cons (.num 1) .nil)) :=
  claim_C3_intermediate_valid [] "[1".data
    (Json.arr (.cons (.num 1) .nil)) rfl

end Vulcan
